import Mathlib

/-!
Verification of the eligibility-analysis engine of `gh-slimify`
(package `internal/workflow`): runner-label checks, privileged-command
regex matching, container-action detection, and the shell-command
extraction pipeline (`GetMissingCommands`, `extractCommands`,
`splitCommandLine`, `extractCommandFromPart`, `normalizeCommand`).

Strings are modelled as Lean `String` at the API boundary and as
`List Char` inside the pipeline.  Go's Unicode-aware helpers
(`strings.ToLower`, `unicode.IsSpace`) are modelled on their behaviour;
`Char.toLower` covers the ASCII simple case mapping, which is the range
exercised by every pattern in this engine.
-/

namespace Slimify

/-- Go `unicode.IsSpace`: the Unicode White_Space code points. -/
def goIsSpace (c : Char) : Bool :=
  (9 ≤ c.toNat && c.toNat ≤ 13) || c.toNat = 32 || c.toNat = 0x85 || c.toNat = 0xA0 ||
  c.toNat = 0x1680 || (0x2000 ≤ c.toNat && c.toNat ≤ 0x200A) ||
  c.toNat = 0x2028 || c.toNat = 0x2029 || c.toNat = 0x202F || c.toNat = 0x205F ||
  c.toNat = 0x3000

/-- RE2 `\s` (ASCII): `[\t\n\f\r ]`. -/
def sChar (c : Char) : Bool :=
  c.toNat = 9 || c.toNat = 10 || c.toNat = 12 || c.toNat = 13 || c.toNat = 32

/-- RE2 `\w` (ASCII word character), used by the `\b` word-boundary assertion. -/
def isWordChar (c : Char) : Bool :=
  ('a' ≤ c && c ≤ 'z') || ('A' ≤ c && c ≤ 'Z') || ('0' ≤ c && c ≤ '9') || c = '_'

/-- The character class `[\s-]` of the first container-command pattern. -/
def sepCh (c : Char) : Bool := sChar c || c = '-'

/-- Go `strings.ToLower`, restricted to the ASCII simple case mapping
(`Char.toLower` maps `'A'..'Z'`; every pattern in the engine is ASCII). -/
def toLowerGo (s : String) : String := String.mk (s.data.map Char.toLower)

/-- Strip a literal from the front of a list: `dropLit l s = some r` iff
`s = l ++ r`.  Models Go `strings.HasPrefix` plus the remainder. -/
def dropLit : List Char → List Char → Option (List Char)
  | [], s => some s
  | _ :: _, [] => none
  | a :: as, b :: bs => if a = b then dropLit as bs else none

/-- Go `strings.HasPrefix`. -/
def isLitAt (l s : List Char) : Bool := (dropLit l s).isSome

/-- Go `strings.Split` with a one-character separator. -/
def goSplit1 (sep : Char) : List Char → List (List Char)
  | [] => [[]]
  | c :: rest =>
    if c = sep then [] :: goSplit1 sep rest
    else
      match goSplit1 sep rest with
      | [] => [[c]]
      | seg :: segs => (c :: seg) :: segs

/-- Go `strings.Split` with a two-character separator. -/
def goSplit2 (s1 s2 : Char) : List Char → List (List Char)
  | [] => [[]]
  | [c] => [[c]]
  | c1 :: c2 :: rest =>
    if c1 = s1 && c2 = s2 then [] :: goSplit2 s1 s2 rest
    else
      match goSplit2 s1 s2 (c2 :: rest) with
      | [] => [[c1]]
      | seg :: segs => (c1 :: seg) :: segs

/-- Go `strings.TrimSpace` (drop Unicode space from both ends). -/
def goTrim (s : List Char) : List Char :=
  ((s.dropWhile goIsSpace).reverse.dropWhile goIsSpace).reverse

/-- Worker for `goFields`: `acc` is the current field, reversed. -/
def fieldsAux : List Char → List Char → List (List Char)
  | acc, [] => if acc.isEmpty then [] else [acc.reverse]
  | acc, c :: rest =>
    if goIsSpace c then
      if acc.isEmpty then fieldsAux [] rest
      else acc.reverse :: fieldsAux [] rest
    else fieldsAux (c :: acc) rest

/-- Go `strings.Fields`: split around runs of Unicode space. -/
def goFields (s : List Char) : List (List Char) := fieldsAux [] s

/-- Go `strings.Join` with separator `" "`. -/
def joinSpace : List (List Char) → List Char
  | [] => []
  | [x] => x
  | x :: y :: rest => x ++ ' ' :: joinSpace (y :: rest)

/-! ## Data model

`workflow.Job` holds `RunsOn any`, `Steps []Step`, `Services map[string]any`,
`Container any` (shapes observed in the YAML decoding and the test suite).
The `any`-typed fields are modelled as tagged variants / options. -/

/-- One element of a `runs-on` YAML sequence: a string, or any other value. -/
inductive RunsOnItem where
  | iStr (s : String)
  | iOther
deriving DecidableEq

/-- The polymorphic `runs-on` field: `nil`, a scalar string, a sequence,
or a value of any other dynamic type (the `default` arm of the Go switch). -/
inductive RunsOnVal where
  | vNil
  | vStr (s : String)
  | vArr (items : List RunsOnItem)
  | vOther
deriving DecidableEq

/-- An opaque service descriptor; `HasServices` never inspects it. -/
inductive SvcDesc where
  | desc
deriving DecidableEq

/-- The `container:` field: a bare image string or a structured mapping. -/
inductive ContainerVal where
  | img (s : String)
  | structured (fields : List (String × String))
deriving DecidableEq

/-- `workflow.Step`: `Run` and `Uses` are plain strings, `""` when absent. -/
structure Step where
  run : String
  uses : String
deriving DecidableEq

/-- `workflow.Job`.  `services = none` models a nil map; `some m` a non-nil
(possibly empty) map.  `container = none` models nil. -/
structure Job where
  runsOn : RunsOnVal
  steps : List Step
  services : Option (List (String × SvcDesc)) := none
  container : Option ContainerVal := none
deriving DecidableEq

/-! ## Regex matchers

The three compiled patterns of `containerCommandPatterns` are embedded as
position matchers: a matcher is given the character preceding the current
position (`none` at the start of the string) and the suffix starting there,
and decides whether the pattern matches at that position.
`regexMatch` then searches every position, which is `MatchString`. -/

/-- `\b` before a word character: the previous character, if any, is not a
word character. -/
def boundaryL : Option Char → Bool
  | none => true
  | some c => !isWordChar c

/-- `\b` after a word character: the rest is empty or starts with a
non-word character. -/
def boundaryR : List Char → Bool
  | [] => true
  | c :: _ => !isWordChar c

/-- The subcommand alternation of the first pattern:
`build|run|exec|ps|pull|push|tag|login`. -/
def subcmdCode : List (List Char) :=
  ["build".data, "run".data, "exec".data, "ps".data,
   "pull".data, "push".data, "tag".data, "login".data]

def dockerChars : List Char := "docker".data
def composeChars : List Char := "compose".data
def dashComposeChars : List Char := "docker-compose".data

/-- Pattern 1: `\bdocker[\s-](?:build|run|exec|ps|pull|push|tag|login)\b`. -/
def p1At (prev : Option Char) (cs : List Char) : Bool :=
  boundaryL prev &&
  match dropLit dockerChars cs with
  | none => false
  | some rest =>
    match rest with
    | [] => false
    | c :: rest2 =>
      sepCh c &&
      subcmdCode.any fun sub =>
        match dropLit sub rest2 with
        | none => false
        | some rest3 => boundaryR rest3

/-- Pattern 2: `\bdocker-compose\b`. -/
def p2At (prev : Option Char) (cs : List Char) : Bool :=
  boundaryL prev &&
  match dropLit dashComposeChars cs with
  | none => false
  | some rest => boundaryR rest

/-- Pattern 3: `\bdocker\s+compose\b` (`\s+` is greedy; `compose` starts
with a non-space character, so consuming all spaces is exact). -/
def p3At (prev : Option Char) (cs : List Char) : Bool :=
  boundaryL prev &&
  match dropLit dockerChars cs with
  | none => false
  | some rest =>
    match rest with
    | [] => false
    | c :: rest2 =>
      sChar c &&
      match dropLit composeChars (rest2.dropWhile sChar) with
      | none => false
      | some rest3 => boundaryR rest3

/-- Search every position of the string for a match of `p`; `prev` is the
character just before the current position. -/
def scanFrom (p : Option Char → List Char → Bool) : Option Char → List Char → Bool
  | prev, [] => p prev []
  | prev, c :: rest => p prev (c :: rest) || scanFrom p (some c) rest

/-- `regexp.MatchString` for one embedded pattern. -/
def regexMatch (p : Option Char → List Char → Bool) (s : List Char) : Bool :=
  scanFrom p none s

/-- The `containerCommandPatterns` slice: the three compiled regexes. -/
def containerCommandPatterns : List (Option Char → List Char → Bool) :=
  [p1At, p2At, p3At]

/-- The `containerActionPrefixes` slice. -/
def containerActionPrefixes : List String := ["docker"]

/-! ## The workflow package predicates -/

/-- `(*Job).IsUbuntuLatest`. -/
def IsUbuntuLatest (j : Job) : Bool :=
  match j.runsOn with
  | .vNil => false
  | .vStr v => v == "ubuntu-latest"
  | .vArr items =>
    items.any fun it =>
      match it with
      | .iStr s => s == "ubuntu-latest"
      | .iOther => false
  | .vOther => false

/-- `(*Job).HasDockerCommands`: lower-case each non-empty `Run` body and
test it against every pattern of `containerCommandPatterns`. -/
def HasDockerCommands (j : Job) : Bool :=
  j.steps.any fun step =>
    if step.run = "" then false
    else containerCommandPatterns.any fun p => regexMatch p (toLowerGo step.run).data

/-- `(*Job).HasContainerActions`: a non-empty `Uses` that starts with one
of `containerActionPrefixes`. -/
def HasContainerActions (j : Job) : Bool :=
  j.steps.any fun step =>
    if step.uses = "" then false
    else containerActionPrefixes.any fun pre => isLitAt pre.data step.uses.data

/-- `(*Job).HasServices`: `j.Services != nil`. -/
def HasServices (j : Job) : Bool := j.services.isSome

/-- `(*Job).HasContainer`: `j.Container != nil`. -/
def HasContainer (j : Job) : Bool := j.container.isSome

/-! ## Command extraction pipeline -/

/-- A separator of `splitCommandLine` (all of them are 1 or 2 characters). -/
inductive SepTok where
  | one (c : Char)
  | two (a b : Char)

/-- `strings.Split` for a separator token. -/
def sepSplit : SepTok → List Char → List (List Char)
  | .one c, s => goSplit1 c s
  | .two a b, s => goSplit2 a b s

/-- The separator list `{"|", "&&", "||", ";", ">>", "<<", ">", "<"}`,
iterated in this order. -/
def lineSeparators : List SepTok :=
  [.one '|', .two '&' '&', .two '|' '|', .one ';',
   .two '>' '>', .two '<' '<', .one '>', .one '<']

/-- `splitCommandLine`: for each separator in turn, split every part,
trim each piece, and keep the non-empty pieces. -/
def splitCommandLine (line : List Char) : List (List Char) :=
  lineSeparators.foldl
    (fun parts sep =>
      parts.foldl
        (fun acc part =>
          acc ++ ((sepSplit sep part).map goTrim).filter (fun s => !s.isEmpty))
        [])
    [line]

/-- The wrapper-prefix table `{"sudo", "env", "time", "nohup", "setsid",
"stdbuf"}` of `extractCommandFromPart`. -/
def wrapperPrefixes : List (List Char) :=
  ["sudo".data, "env".data, "time".data, "nohup".data, "setsid".data, "stdbuf".data]

/-- Is this field one of the wrapper prefixes? (the inner loop of
`extractCommandFromPart`). -/
def isWrapper (f : List Char) : Bool := wrapperPrefixes.any fun w => f = w

/-- `extractCommandFromPart`: trim, tokenize, skip leading `NAME=value`
assignments, re-join and re-tokenize, skip stacked wrapper prefixes, and
return the first remaining token (`[]` when nothing remains). -/
def extractCommandFromPart (part : List Char) : List Char :=
  if (goTrim part).isEmpty then []
  else if (goFields (goTrim part)).isEmpty then []
  -- startIndex loop: skip fields containing '='
  else if ((goFields (goTrim part)).dropWhile fun f => f.contains '=').isEmpty then []
  -- part = strings.Join(fields[startIndex:], " "); fields = Fields(part)
  else if (goFields (joinSpace
      ((goFields (goTrim part)).dropWhile fun f => f.contains '='))).isEmpty then []
  else
    -- cmdStartIndex loop: skip wrapper prefixes
    match (goFields (joinSpace
        ((goFields (goTrim part)).dropWhile fun f => f.contains '='))).dropWhile isWrapper with
    | [] => []
    | cmd :: _ => cmd

/-- `extractCommands`: split the script into lines, trim, drop blank and
`#`-comment lines (the `#!` shebang test in the source is subsumed by the
`#` test and kept here verbatim), split each kept line into fragments and
collect the non-empty extracted commands. -/
def extractCommands (script : String) : List (List Char) :=
  (goSplit1 '\n' script.data).foldl
    (fun cmds rawLine =>
      if (goTrim rawLine).isEmpty then cmds
      else if isLitAt ['#'] (goTrim rawLine) then cmds
      else if isLitAt ['#', '!'] (goTrim rawLine) then cmds
      else
        (splitCommandLine (goTrim rawLine)).foldl
          (fun acc part =>
            if (extractCommandFromPart part).isEmpty then acc
            else acc ++ [extractCommandFromPart part])
          cmds)
    []

/-- `normalizeCommand`: keep only the basename (the piece after the last
`/`) and trim.  `parts[len(parts)-1]` is modelled by `getLastD`; the
`Except` variant below makes the index explicit. -/
def normalizeCommand (cmd : List Char) : List Char :=
  if cmd.isEmpty then []
  else if cmd.contains '/' then goTrim ((goSplit1 '/' cmd).getLastD [])
  else goTrim cmd

/- `IsMissingInSlim` lives in a file of the repository that is not part of
the sources here; the spec treats the compatibility table as an external,
read-only lookup, so it is passed as the parameter `missing`. -/

/-- `(*Job).GetMissingCommands`: only `ubuntu-latest` jobs are scanned;
extracted commands are normalized, looked up in the table, and
deduplicated in insertion order (the `seen` map). -/
def GetMissingCommands (missing : String → Bool) (j : Job) : List String :=
  if !IsUbuntuLatest j then []
  else
    j.steps.foldl
      (fun acc step =>
        if step.run = "" then acc
        else
          (extractCommands step.run).foldl
            (fun acc2 cmd =>
              if (normalizeCommand cmd).isEmpty then acc2
              else if missing (String.mk (normalizeCommand cmd)) &&
                  !acc2.contains (String.mk (normalizeCommand cmd)) then
                acc2 ++ [String.mk (normalizeCommand cmd)]
              else acc2)
            acc)
      []

/-! ## Error-explicit variant of the pipeline

Go's only unguarded partial operation in this pipeline is the slice index
`parts[len(parts)-1]` inside `normalizeCommand`; every other index is
guarded by a bounds test.  The `Except`-typed variant below makes that
index explicit, so that totality is a theorem rather than a by-product of
the shallow embedding. -/

/-- `normalizeCommand` with the `parts[len(parts)-1]` index explicit. -/
def normalizeCommandE (cmd : List Char) : Except String (List Char) :=
  if cmd.isEmpty then .ok []
  else
    if cmd.contains '/' then
      match (goSplit1 '/' cmd).getLast? with
      | none => .error "index out of range"
      | some last => .ok (goTrim last)
    else .ok (goTrim cmd)

/-- `GetMissingCommands` built on the error-explicit `normalizeCommandE`. -/
def GetMissingCommandsE (missing : String → Bool) (j : Job) :
    Except String (List String) :=
  if !IsUbuntuLatest j then .ok []
  else
    j.steps.foldlM
      (fun acc step =>
        if step.run = "" then .ok acc
        else
          (extractCommands step.run).foldlM
            (fun acc2 cmd =>
              (normalizeCommandE cmd).bind fun cmdName =>
                if cmdName.isEmpty then .ok acc2
                else if missing (String.mk cmdName) &&
                    !acc2.contains (String.mk cmdName) then
                  .ok (acc2 ++ [String.mk cmdName])
                else .ok acc2)
            acc)
      []

/-! ## Spec-side definitions

These follow the specification's words, to be compared with the
definitions above that embed the source. -/

/-- Spec §4.1 `RunnerLabels`: every literal runner label referenced by the
job, whether declared as a single value or as a list; absent/`nil`
degrades to the empty set. -/
def specDeclaredLabels : RunsOnVal → List String
  | .vStr s => [s]
  | .vArr items =>
    items.filterMap fun it =>
      match it with
      | .iStr s => some s
      | .iOther => none
  | _ => []

/-- Modelled from the spec: the scan package's `isEligible` (its file is
not among the sources here; the test suite exercises it).  Spec §4.2: all
criteria must hold — source runner, no privileged commands, no container
actions, no services, no job-level container.  The optional duration bound
is external input and not part of this per-job predicate. -/
def isEligible (j : Job) : Bool :=
  IsUbuntuLatest j && !HasDockerCommands j && !HasContainerActions j &&
    !HasServices j && !HasContainer j

/-- Spec-side word/token boundary on the left of an occurrence: the text
before it is empty or ends in a non-word character. -/
def BoundL (pre : List Char) : Prop :=
  pre = [] ∨ ∃ c, pre.getLast? = some c ∧ isWordChar c = false

/-- Spec-side word/token boundary on the right of an occurrence: the text
after it is empty or starts with a non-word character. -/
def BoundR (post : List Char) : Prop :=
  post = [] ∨ ∃ c cs, post = c :: cs ∧ isWordChar c = false

/-- The subcommand list claimed by the spec:
`build, run, exec, list, pull, push, tag, login`. -/
def subcmdClaim : List (List Char) :=
  ["build".data, "run".data, "exec".data, "list".data,
   "pull".data, "push".data, "tag".data, "login".data]

/-- The forms a privileged-command occurrence can take, per the spec:
`docker` followed by one whitespace-or-hyphen separator and a subcommand
from `subs`; the hyphenated compose spelling; or the space-separated
compose spelling (one or more whitespace characters). -/
def MidForm (subs : List (List Char)) (mid : List Char) : Prop :=
  (∃ sep sub, sepCh sep = true ∧ sub ∈ subs ∧ mid = dockerChars ++ sep :: sub) ∨
  mid = dashComposeChars ∨
  (∃ sp, sp ≠ [] ∧ (∀ c ∈ sp, sChar c = true) ∧ mid = dockerChars ++ sp ++ composeChars)

/-- Spec-side "the (lower-cased) shell text contains a privileged-command
occurrence at a word/token boundary". -/
def SpecCmd (subs : List (List Char)) (s : List Char) : Prop :=
  ∃ pre mid post, s = pre ++ mid ++ post ∧ BoundL pre ∧ BoundR post ∧ MidForm subs mid

/-- The character just before the current scan position, given the
character before the whole prefix and the prefix consumed so far. -/
def ctxLast (prev : Option Char) (pre : List Char) : Option Char :=
  match pre.getLast? with
  | some c => some c
  | none => prev

/-- The `mid` shapes of the three patterns, in one predicate each. -/
def Mid1 (mid : List Char) : Prop :=
  ∃ sep sub, sepCh sep = true ∧ sub ∈ subcmdCode ∧ mid = dockerChars ++ sep :: sub

def Mid2 (mid : List Char) : Prop := mid = dashComposeChars

def Mid3 (mid : List Char) : Prop :=
  ∃ sp, sp ≠ [] ∧ (∀ c ∈ sp, sChar c = true) ∧ mid = dockerChars ++ sp ++ composeChars

/-- The contribution of one fragment to `extractCommands`. -/
def partCmd (part : List Char) : Option (List Char) :=
  let c := extractCommandFromPart part
  if c.isEmpty then none else some c

/-- The contribution of one raw line to `extractCommands`. -/
def lineCmds (rawLine : List Char) : List (List Char) :=
  let line := goTrim rawLine
  if line.isEmpty then []
  else if isLitAt ['#'] line then []
  else if isLitAt ['#', '!'] line then []
  else (splitCommandLine line).filterMap partCmd

/-- The fragments one raw line contributes (the kept-line filter of
`extractCommands` followed by `splitCommandLine`). -/
def lineFrags (rawLine : List Char) : List (List Char) :=
  let line := goTrim rawLine
  if line.isEmpty then []
  else if isLitAt ['#'] line then []
  else if isLitAt ['#', '!'] line then []
  else splitCommandLine line

/-- All command fragments of a shell-script body, in order. -/
def scriptFragments (script : String) : List (List Char) :=
  (goSplit1 '\n' script.data).flatMap lineFrags

/-! ## Concrete jobs used in the claim theorems -/

/-- An `ubuntu-latest` job with one shell step. -/
def runJob (script : String) : Job :=
  { runsOn := .vStr "ubuntu-latest", steps := [{ run := script, uses := "" }] }

/-- An `ubuntu-latest` job with one action step. -/
def usesJob (action : String) : Job :=
  { runsOn := .vStr "ubuntu-latest", steps := [{ run := "", uses := action }] }

def jobDockerList : Job := runJob "docker list"
def jobEchoUpper : Job := runJob "echo DOCKER_BUILD"
def jobCaseUpper : Job := runJob "DOCKER BUILD now"
def jobSudoDocker : Job := runJob "sudo docker build -t app ."
def jobRedirect : Job := runJob "echo hi > docker"
def jobEnvAssign : Job := runJob "env FOO=1 docker build"
def jobAssignOnly : Job := runJob "FOO=bar BAZ=qux"
def jobDockerScheme : Job := usesJob "docker://alpine:latest"
def jobDockerOrg : Job := usesJob "docker/build-push-action@v6"
def jobXlLabel : Job := { runsOn := .vStr "ubuntu-latest-xl", steps := [] }
def jobNilRunner : Job := { runsOn := .vNil, steps := [{ run := "echo hello", uses := "" }] }

/-- The disqualifying input of C5: a present but empty `services:` mapping. -/
def jobEmptyServices : Job :=
  { runsOn := .vStr "ubuntu-latest", steps := [], services := some [] }

/-! ## Lemmas about the string utilities -/

theorem dropLit_eq_some_iff : ∀ (l s r : List Char), dropLit l s = some r ↔ s = l ++ r := by
  intro l
  induction l with
  | nil =>
    intro s r
    simp [dropLit]
  | cons a as ih =>
    intro s r
    cases s with
    | nil => simp [dropLit]
    | cons b bs =>
      by_cases hab : a = b
      · subst hab
        simp [dropLit, ih]
      · simp [dropLit, Ne.symm hab, hab]

theorem isLitAt_iff (l s : List Char) : isLitAt l s = true ↔ ∃ r, s = l ++ r := by
  unfold isLitAt
  rw [Option.isSome_iff_exists]
  constructor
  · rintro ⟨r, hr⟩
    exact ⟨r, (dropLit_eq_some_iff l s r).mp hr⟩
  · rintro ⟨r, hr⟩
    exact ⟨r, (dropLit_eq_some_iff l s r).mpr hr⟩

theorem ctxLast_nil (prev : Option Char) : ctxLast prev [] = prev := rfl

theorem ctxLast_cons (prev : Option Char) (c : Char) (pre : List Char) :
    ctxLast prev (c :: pre) = ctxLast (some c) pre := by
  cases pre with
  | nil => simp [ctxLast]
  | cons d pre' =>
    unfold ctxLast
    rw [List.getLast?_cons_cons]
    cases h : (d :: pre').getLast? with
    | none =>
      rw [List.getLast?_eq_none_iff] at h
      exact absurd h (List.cons_ne_nil d pre')
    | some e => rfl

theorem scanFrom_iff (p : Option Char → List Char → Bool) :
    ∀ (cs : List Char) (prev : Option Char),
      scanFrom p prev cs = true ↔
        ∃ pre post, cs = pre ++ post ∧ p (ctxLast prev pre) post = true := by
  intro cs
  induction cs with
  | nil =>
    intro prev
    simp only [scanFrom]
    constructor
    · intro h
      exact ⟨[], [], rfl, h⟩
    · rintro ⟨pre, post, heq, hp⟩
      obtain ⟨hpre, hpost⟩ := List.append_eq_nil.mp heq.symm
      subst hpre; subst hpost
      exact hp
  | cons c rest ih =>
    intro prev
    simp only [scanFrom, Bool.or_eq_true]
    constructor
    · rintro (h | h)
      · exact ⟨[], c :: rest, rfl, h⟩
      · obtain ⟨pre, post, heq, hp⟩ := (ih (some c)).mp h
        refine ⟨c :: pre, post, by simp [heq], ?_⟩
        rw [ctxLast_cons]
        exact hp
    · rintro ⟨pre, post, heq, hp⟩
      cases pre with
      | nil =>
        left
        simp only [List.nil_append] at heq
        rw [heq]
        exact hp
      | cons d pre' =>
        right
        simp only [List.cons_append, List.cons.injEq] at heq
        obtain ⟨hdc, hrest⟩ := heq
        subst hdc
        refine (ih (some c)).mpr ⟨pre', post, hrest, ?_⟩
        rw [← ctxLast_cons]
        exact hp

theorem boundaryL_getLast_iff (pre : List Char) :
    boundaryL pre.getLast? = true ↔ BoundL pre := by
  cases h : pre.getLast? with
  | none =>
    simp only [boundaryL, BoundL]
    rw [List.getLast?_eq_none_iff] at h
    simp [h]
  | some c =>
    simp only [boundaryL, BoundL, Bool.not_eq_true']
    constructor
    · intro hw
      right
      exact ⟨c, h, hw⟩
    · rintro (hnil | ⟨c', hc', hw⟩)
      · subst hnil; simp at h
      · rw [h] at hc'
        injection hc' with hcc
        subst hcc
        exact hw

theorem ctxLast_none (pre : List Char) : ctxLast none pre = pre.getLast? := by
  unfold ctxLast
  cases pre.getLast? <;> rfl

theorem boundaryR_iff (post : List Char) : boundaryR post = true ↔ BoundR post := by
  cases post with
  | nil => simp [boundaryR, BoundR]
  | cons c cs =>
    simp only [boundaryR, BoundR, Bool.not_eq_true']
    constructor
    · intro hw
      right
      exact ⟨c, cs, rfl, hw⟩
    · rintro (hnil | ⟨c', cs', hc', hw⟩)
      · exact absurd hnil (List.cons_ne_nil c cs)
      · injection hc' with h1 h2
        subst h1
        exact hw

/-! ## Characterizing the three patterns -/

theorem p1At_iff (prev : Option Char) (cs : List Char) :
    p1At prev cs = true ↔
      boundaryL prev = true ∧
        ∃ sep sub post, sepCh sep = true ∧ sub ∈ subcmdCode ∧
          cs = dockerChars ++ sep :: (sub ++ post) ∧ boundaryR post = true := by
  unfold p1At
  rw [Bool.and_eq_true]
  apply and_congr_right
  intro _
  cases hdl : dropLit dockerChars cs with
  | none =>
    simp only [Bool.false_eq_true, false_iff]
    rintro ⟨sep, sub, post, hsep, hsub, hcs, hbr⟩
    have h2 := (dropLit_eq_some_iff dockerChars cs (sep :: (sub ++ post))).mpr hcs
    rw [hdl] at h2
    exact Option.noConfusion h2
  | some rest =>
    have hcs : cs = dockerChars ++ rest := (dropLit_eq_some_iff _ _ _).mp hdl
    subst hcs
    cases rest with
    | nil =>
      simp only [Bool.false_eq_true, false_iff]
      rintro ⟨sep, sub, post, hsep, hsub, hcs, hbr⟩
      exact List.noConfusion (List.append_cancel_left hcs)
    | cons c rest2 =>
      rw [Bool.and_eq_true, List.any_eq_true]
      constructor
      · rintro ⟨hsep, sub, hsub, hmatch⟩
        cases hdl2 : dropLit sub rest2 with
        | none => rw [hdl2] at hmatch; exact Bool.noConfusion hmatch
        | some rest3 =>
          rw [hdl2] at hmatch
          have hr2 : rest2 = sub ++ rest3 := (dropLit_eq_some_iff _ _ _).mp hdl2
          exact ⟨c, sub, rest3, hsep, hsub, by rw [hr2], hmatch⟩
      · rintro ⟨sep, sub, post, hsep, hsub, heq, hbr⟩
        have h3 := List.append_cancel_left heq
        injection h3 with h4 h5
        subst h4
        refine ⟨hsep, sub, hsub, ?_⟩
        rw [(dropLit_eq_some_iff sub rest2 post).mpr h5]
        exact hbr

theorem p2At_iff (prev : Option Char) (cs : List Char) :
    p2At prev cs = true ↔
      boundaryL prev = true ∧
        ∃ post, cs = dashComposeChars ++ post ∧ boundaryR post = true := by
  unfold p2At
  rw [Bool.and_eq_true]
  apply and_congr_right
  intro _
  cases hdl : dropLit dashComposeChars cs with
  | none =>
    simp only [Bool.false_eq_true, false_iff]
    rintro ⟨post, hcs, hbr⟩
    have h2 := (dropLit_eq_some_iff dashComposeChars cs post).mpr hcs
    rw [hdl] at h2
    exact Option.noConfusion h2
  | some rest =>
    have hcs : cs = dashComposeChars ++ rest := (dropLit_eq_some_iff _ _ _).mp hdl
    subst hcs
    constructor
    · intro hbr
      exact ⟨rest, rfl, hbr⟩
    · rintro ⟨post, heq, hbr⟩
      rw [List.append_cancel_left heq]
      exact hbr

/-- Elements picked by `takeWhile` satisfy the predicate. -/
theorem all_takeWhile (p : Char → Bool) :
    ∀ l : List Char, ∀ c ∈ l.takeWhile p, p c = true := by
  intro l
  induction l with
  | nil => intro c hc; simp [List.takeWhile] at hc
  | cons a as ih =>
    intro c hc
    rw [List.takeWhile_cons] at hc
    by_cases hp : p a
    · rw [if_pos hp] at hc
      rcases List.mem_cons.mp hc with h | h
      · subst h; exact hp
      · exact ih c h
    · rw [if_neg hp] at hc
      simp at hc

/-- Dropping a fully-satisfying block stops exactly at a failing head. -/
theorem dropWhile_all_append (p : Char → Bool) :
    ∀ (sp rest : List Char), (∀ c ∈ sp, p c = true) →
      (∀ c cs, rest = c :: cs → p c = false) →
      (sp ++ rest).dropWhile p = rest := by
  intro sp
  induction sp with
  | nil =>
    intro rest _ hrest
    cases rest with
    | nil => rfl
    | cons c cs =>
      simp only [List.nil_append]
      rw [List.dropWhile_cons_of_neg]
      simp [hrest c cs rfl]
  | cons a as ih =>
    intro rest hsp hrest
    simp only [List.cons_append]
    rw [List.dropWhile_cons_of_pos (hsp a (List.mem_cons_self a as))]
    exact ih rest (fun c hc => hsp c (List.mem_cons_of_mem a hc)) hrest

theorem p3At_iff (prev : Option Char) (cs : List Char) :
    p3At prev cs = true ↔
      boundaryL prev = true ∧
        ∃ sp post, sp ≠ [] ∧ (∀ c ∈ sp, sChar c = true) ∧
          cs = dockerChars ++ sp ++ composeChars ++ post ∧ boundaryR post = true := by
  unfold p3At
  rw [Bool.and_eq_true]
  apply and_congr_right
  intro _
  cases hdl : dropLit dockerChars cs with
  | none =>
    simp only [Bool.false_eq_true, false_iff]
    rintro ⟨sp, post, hne, hsp, hcs, hbr⟩
    have h2 := (dropLit_eq_some_iff dockerChars cs (sp ++ composeChars ++ post)).mpr
      (by rw [hcs]; simp [List.append_assoc])
    rw [hdl] at h2
    exact Option.noConfusion h2
  | some rest =>
    have hcs : cs = dockerChars ++ rest := (dropLit_eq_some_iff _ _ _).mp hdl
    subst hcs
    cases rest with
    | nil =>
      simp only [Bool.false_eq_true, false_iff]
      rintro ⟨sp, post, hne, hsp, hcs, hbr⟩
      rw [List.append_assoc, List.append_assoc] at hcs
      have h3 := List.append_cancel_left hcs
      cases sp with
      | nil => exact hne rfl
      | cons a as => exact List.noConfusion h3
    | cons c rest2 =>
      rw [Bool.and_eq_true]
      constructor
      · rintro ⟨hsc, hmatch⟩
        cases hdl2 : dropLit composeChars (rest2.dropWhile sChar) with
        | none => rw [hdl2] at hmatch; exact Bool.noConfusion hmatch
        | some rest3 =>
          rw [hdl2] at hmatch
          have hr2 : rest2.dropWhile sChar = composeChars ++ rest3 :=
            (dropLit_eq_some_iff _ _ _).mp hdl2
          refine ⟨c :: rest2.takeWhile sChar, rest3, List.cons_ne_nil _ _, ?_, ?_, hmatch⟩
          · intro d hd
            rcases List.mem_cons.mp hd with h | h
            · subst h; exact hsc
            · exact all_takeWhile sChar rest2 d h
          · have hsplit : rest2 = rest2.takeWhile sChar ++ rest2.dropWhile sChar :=
              (List.takeWhile_append_dropWhile sChar rest2).symm
            conv_lhs => rw [hsplit, hr2]
            simp [List.append_assoc]
      · rintro ⟨sp, post, hne, hsp, hcs, hbr⟩
        rw [List.append_assoc, List.append_assoc] at hcs
        have h3 := List.append_cancel_left hcs
        cases sp with
        | nil => exact absurd rfl hne
        | cons a as =>
          simp only [List.cons_append] at h3
          injection h3 with h4 h5
          subst h4
          have hsa : sChar c = true := hsp c (List.mem_cons_self c as)
          refine ⟨hsa, ?_⟩
          have hdw : rest2.dropWhile sChar = composeChars ++ post := by
            rw [h5]
            exact dropWhile_all_append sChar as (composeChars ++ post)
              (fun d hd => hsp d (List.mem_cons_of_mem c hd))
              (fun d ds hds => by
                have : d = 'c' := by
                  have := hds
                  simp [composeChars] at this
                  exact this.1.symm
                subst this
                decide)
          rw [(dropLit_eq_some_iff composeChars (rest2.dropWhile sChar) post).mpr hdw]
          exact hbr

/-! ## From position matchers to whole-string matching -/

/-- Generic bridge: searching all positions for a matcher that consumes a
`mid` block with boundary checks is the boundary-decomposition property. -/
theorem regexMatch_decomp (pk : Option Char → List Char → Bool)
    (MK : List Char → Prop)
    (hk : ∀ prev cs, pk prev cs = true ↔
      boundaryL prev = true ∧ ∃ mid post, cs = mid ++ post ∧ MK mid ∧ boundaryR post = true)
    (s : List Char) :
    regexMatch pk s = true ↔
      ∃ pre mid post, s = pre ++ mid ++ post ∧ BoundL pre ∧ BoundR post ∧ MK mid := by
  unfold regexMatch
  rw [scanFrom_iff]
  constructor
  · rintro ⟨pre, rest, heq, hp⟩
    rw [hk] at hp
    obtain ⟨hbl, mid, post, hrest, hmk, hbr⟩ := hp
    refine ⟨pre, mid, post, ?_, ?_, (boundaryR_iff post).mp hbr, hmk⟩
    · rw [heq, hrest, List.append_assoc]
    · rw [ctxLast_none] at hbl
      exact (boundaryL_getLast_iff pre).mp hbl
  · rintro ⟨pre, mid, post, heq, hbl, hbr, hmk⟩
    refine ⟨pre, mid ++ post, by rw [heq, List.append_assoc], ?_⟩
    rw [hk]
    refine ⟨?_, mid, post, rfl, hmk, (boundaryR_iff post).mpr hbr⟩
    rw [ctxLast_none]
    exact (boundaryL_getLast_iff pre).mpr hbl

theorem regexMatch_p1 (s : List Char) :
    regexMatch p1At s = true ↔
      ∃ pre mid post, s = pre ++ mid ++ post ∧ BoundL pre ∧ BoundR post ∧ Mid1 mid := by
  apply regexMatch_decomp
  intro prev cs
  rw [p1At_iff]
  apply and_congr_right
  intro _
  constructor
  · rintro ⟨sep, sub, post, hsep, hsub, hcs, hbr⟩
    exact ⟨dockerChars ++ sep :: sub, post, by rw [hcs]; simp [List.append_assoc],
      ⟨sep, sub, hsep, hsub, rfl⟩, hbr⟩
  · rintro ⟨mid, post, hcs, ⟨sep, sub, hsep, hsub, hmid⟩, hbr⟩
    exact ⟨sep, sub, post, hsep, hsub, by rw [hcs, hmid]; simp [List.append_assoc], hbr⟩

theorem regexMatch_p2 (s : List Char) :
    regexMatch p2At s = true ↔
      ∃ pre mid post, s = pre ++ mid ++ post ∧ BoundL pre ∧ BoundR post ∧ Mid2 mid := by
  apply regexMatch_decomp
  intro prev cs
  rw [p2At_iff]
  apply and_congr_right
  intro _
  constructor
  · rintro ⟨post, hcs, hbr⟩
    exact ⟨dashComposeChars, post, hcs, rfl, hbr⟩
  · rintro ⟨mid, post, hcs, hmid, hbr⟩
    exact ⟨post, by rw [hcs, hmid], hbr⟩

theorem regexMatch_p3 (s : List Char) :
    regexMatch p3At s = true ↔
      ∃ pre mid post, s = pre ++ mid ++ post ∧ BoundL pre ∧ BoundR post ∧ Mid3 mid := by
  apply regexMatch_decomp
  intro prev cs
  rw [p3At_iff]
  apply and_congr_right
  intro _
  constructor
  · rintro ⟨sp, post, hne, hsp, hcs, hbr⟩
    exact ⟨dockerChars ++ sp ++ composeChars, post, by simp [hcs, List.append_assoc],
      ⟨sp, hne, hsp, rfl⟩, hbr⟩
  · rintro ⟨mid, post, hcs, ⟨sp, hne, hsp, hmid⟩, hbr⟩
    exact ⟨sp, post, hne, hsp, by simp [hcs, hmid, List.append_assoc], hbr⟩

/-- The three-pattern loop of `HasDockerCommands` matches the lowered text
exactly when the spec-side occurrence predicate (with the code's
subcommand list) holds. -/
theorem patterns_iff_specCmd (s : List Char) :
    (containerCommandPatterns.any fun p => regexMatch p s) = true ↔
      SpecCmd subcmdCode s := by
  have hexp : (containerCommandPatterns.any fun p => regexMatch p s) =
      (regexMatch p1At s || regexMatch p2At s || regexMatch p3At s) := by
    simp [containerCommandPatterns, List.any, Bool.or_assoc]
  rw [hexp]
  simp only [Bool.or_eq_true]
  rw [regexMatch_p1, regexMatch_p2, regexMatch_p3]
  unfold SpecCmd MidForm Mid1 Mid2 Mid3
  constructor
  · rintro ((⟨pre, mid, post, h1, h2, h3, h4⟩ | ⟨pre, mid, post, h1, h2, h3, h4⟩) |
      ⟨pre, mid, post, h1, h2, h3, h4⟩)
    · exact ⟨pre, mid, post, h1, h2, h3, Or.inl h4⟩
    · exact ⟨pre, mid, post, h1, h2, h3, Or.inr (Or.inl h4)⟩
    · exact ⟨pre, mid, post, h1, h2, h3, Or.inr (Or.inr h4)⟩
  · rintro ⟨pre, mid, post, h1, h2, h3, h4 | h4 | h4⟩
    · exact Or.inl (Or.inl ⟨pre, mid, post, h1, h2, h3, h4⟩)
    · exact Or.inl (Or.inr ⟨pre, mid, post, h1, h2, h3, h4⟩)
    · exact Or.inr ⟨pre, mid, post, h1, h2, h3, h4⟩

/-- No privileged-command occurrence fits in the empty string. -/
theorem specCmd_nil (subs : List (List Char)) : ¬ SpecCmd subs [] := by
  rintro ⟨pre, mid, post, heq, _, _, hmid⟩
  have h0 : pre ++ mid ++ post = [] := heq.symm
  rw [List.append_eq_nil] at h0
  obtain ⟨h1, h2⟩ := h0
  rw [List.append_eq_nil] at h1
  obtain ⟨h3, h4⟩ := h1
  subst h4
  rcases hmid with ⟨sep, sub, _, _, hm⟩ | hm | ⟨sp, _, _, hm⟩ <;>
    simp [dockerChars, dashComposeChars] at hm

/-- `HasDockerCommands` holds exactly when some step's lowered shell text
contains a privileged-command occurrence (code subcommand list). -/
theorem hasDocker_iff (j : Job) :
    HasDockerCommands j = true ↔
      ∃ step ∈ j.steps, SpecCmd subcmdCode (toLowerGo step.run).data := by
  unfold HasDockerCommands
  rw [List.any_eq_true]
  constructor
  · rintro ⟨step, hmem, hstep⟩
    refine ⟨step, hmem, ?_⟩
    by_cases hrun : step.run = ""
    · rw [if_pos hrun] at hstep
      exact Bool.noConfusion hstep
    · rw [if_neg hrun] at hstep
      exact (patterns_iff_specCmd _).mp hstep
  · rintro ⟨step, hmem, hspec⟩
    refine ⟨step, hmem, ?_⟩
    by_cases hrun : step.run = ""
    · exfalso
      apply specCmd_nil subcmdCode
      have : (toLowerGo step.run).data = [] := by rw [hrun]; rfl
      rw [this] at hspec
      exact hspec
    · rw [if_neg hrun]
      exact (patterns_iff_specCmd _).mpr hspec

/-! ## Runner-label and action-reference characterizations -/

theorem isUbuntuLatest_iff (j : Job) :
    IsUbuntuLatest j = true ↔ "ubuntu-latest" ∈ specDeclaredLabels j.runsOn := by
  unfold IsUbuntuLatest specDeclaredLabels
  cases j.runsOn with
  | vNil => simp
  | vStr v =>
    simp only [beq_iff_eq, List.mem_singleton]
    exact ⟨fun h => h.symm, fun h => h.symm⟩
  | vArr items =>
    rw [List.any_eq_true]
    simp only [List.mem_filterMap]
    constructor
    · rintro ⟨it, hmem, hit⟩
      cases it with
      | iStr s =>
        simp only [beq_iff_eq] at hit
        exact ⟨.iStr s, hmem, by simp [hit]⟩
      | iOther => exact Bool.noConfusion hit
    · rintro ⟨it, hmem, hit⟩
      cases it with
      | iStr s =>
        simp only [Option.some.injEq] at hit
        exact ⟨.iStr s, hmem, by simp [hit]⟩
      | iOther => exact Option.noConfusion hit
  | vOther => simp

theorem hasContainerActions_iff (j : Job) :
    HasContainerActions j = true ↔
      ∃ step ∈ j.steps, ∃ r, step.uses.data = "docker".data ++ r := by
  unfold HasContainerActions containerActionPrefixes
  rw [List.any_eq_true]
  constructor
  · rintro ⟨step, hmem, hstep⟩
    by_cases huses : step.uses = ""
    · rw [if_pos huses] at hstep
      exact Bool.noConfusion hstep
    · rw [if_neg huses] at hstep
      simp only [List.any_cons, List.any_nil, Bool.or_false] at hstep
      exact ⟨step, hmem, (isLitAt_iff _ _).mp hstep⟩
  · rintro ⟨step, hmem, r, hr⟩
    refine ⟨step, hmem, ?_⟩
    have huses : step.uses ≠ "" := by
      intro h
      rw [h] at hr
      exact List.noConfusion hr
    rw [if_neg huses]
    simp only [List.any_cons, List.any_nil, Bool.or_false]
    exact (isLitAt_iff _ _).mpr ⟨r, hr⟩

/-! ## Folds of the extraction pipeline, restated as binds -/

theorem foldl_partCmd (parts : List (List Char)) :
    ∀ init : List (List Char),
      parts.foldl
        (fun acc part =>
          if (extractCommandFromPart part).isEmpty then acc
          else acc ++ [extractCommandFromPart part])
        init = init ++ parts.filterMap partCmd := by
  induction parts with
  | nil => intro init; simp
  | cons p ps ih =>
    intro init
    simp only [List.foldl_cons, List.filterMap_cons]
    by_cases h : (extractCommandFromPart p).isEmpty
    · rw [if_pos h, ih init]
      have hp : partCmd p = none := by simp [partCmd, h]
      rw [hp]
    · rw [if_neg h, ih (init ++ [extractCommandFromPart p])]
      have hp : partCmd p = some (extractCommandFromPart p) := by simp [partCmd, h]
      rw [hp, List.append_assoc, List.singleton_append]

theorem extractCommands_eq (script : String) :
    extractCommands script = (goSplit1 '\n' script.data).flatMap lineCmds := by
  have key : ∀ (lines : List (List Char)) (init : List (List Char)),
      lines.foldl
        (fun cmds rawLine =>
          if (goTrim rawLine).isEmpty then cmds
          else if isLitAt ['#'] (goTrim rawLine) then cmds
          else if isLitAt ['#', '!'] (goTrim rawLine) then cmds
          else
            (splitCommandLine (goTrim rawLine)).foldl
              (fun acc part =>
                if (extractCommandFromPart part).isEmpty then acc
                else acc ++ [extractCommandFromPart part])
              cmds)
        init = init ++ lines.flatMap lineCmds := by
    intro lines
    induction lines with
    | nil => intro init; simp
    | cons rawLine rest ih =>
      intro init
      simp only [List.foldl_cons, List.flatMap_cons]
      have hstep : (if (goTrim rawLine).isEmpty then init
          else if isLitAt ['#'] (goTrim rawLine) then init
          else if isLitAt ['#', '!'] (goTrim rawLine) then init
          else
            (splitCommandLine (goTrim rawLine)).foldl
              (fun acc part =>
                if (extractCommandFromPart part).isEmpty then acc
                else acc ++ [extractCommandFromPart part])
              init) = init ++ lineCmds rawLine := by
        unfold lineCmds
        by_cases h1 : (goTrim rawLine).isEmpty
        · simp [h1]
        · by_cases h2 : isLitAt ['#'] (goTrim rawLine)
          · simp [h1, h2]
          · by_cases h3 : isLitAt ['#', '!'] (goTrim rawLine)
            · simp [h1, h2, h3]
            · simp only [h1, h2, h3, if_false, Bool.false_eq_true]
              exact foldl_partCmd _ init
      rw [hstep, ih (init ++ lineCmds rawLine), List.append_assoc]
  exact key _ []

theorem extractCommands_eq_nil (script : String)
    (h : ∀ fr ∈ scriptFragments script, extractCommandFromPart fr = []) :
    extractCommands script = [] := by
  rw [extractCommands_eq]
  rw [List.flatMap_eq_nil_iff]
  intro rawLine hmem
  unfold lineCmds
  by_cases h1 : (goTrim rawLine).isEmpty
  · simp [h1]
  · by_cases h2 : isLitAt ['#'] (goTrim rawLine)
    · simp [h1, h2]
    · by_cases h3 : isLitAt ['#', '!'] (goTrim rawLine)
      · simp [h1, h2, h3]
      · simp only [h1, h2, h3, if_false, Bool.false_eq_true]
        rw [List.filterMap_eq_nil_iff]
        intro part hpart
        have hfr : part ∈ scriptFragments script := by
          unfold scriptFragments
          rw [List.mem_flatMap]
          refine ⟨rawLine, hmem, ?_⟩
          unfold lineFrags
          simp only [h1, h2, h3, if_false, Bool.false_eq_true]
          exact hpart
        simp [partCmd, h part hfr]

/-! ## Trimming does not change the whitespace-delimited tokens -/

theorem fieldsAux_cons_space {c : Char} (h : goIsSpace c = true) (rest : List Char) :
    fieldsAux [] (c :: rest) = fieldsAux [] rest := by
  conv_lhs => unfold fieldsAux
  rw [if_pos h]
  simp

theorem fieldsAux_dropWhile_space (s : List Char) :
    fieldsAux [] (s.dropWhile goIsSpace) = fieldsAux [] s := by
  induction s with
  | nil => rfl
  | cons c rest ih =>
    by_cases h : goIsSpace c
    · rw [List.dropWhile_cons_of_pos h, ih, fieldsAux_cons_space h]
    · rw [List.dropWhile_cons_of_neg h]

theorem fieldsAux_all_spaces (suf : List Char) (hsuf : ∀ c ∈ suf, goIsSpace c = true) :
    ∀ acc, fieldsAux acc suf = if acc.isEmpty then [] else [acc.reverse] := by
  induction suf with
  | nil => intro acc; rfl
  | cons c rest ih =>
    intro acc
    have hc := hsuf c (List.mem_cons_self c rest)
    have ih' := ih fun d hd => hsuf d (List.mem_cons_of_mem c hd)
    unfold fieldsAux
    rw [if_pos hc]
    by_cases hacc : acc.isEmpty
    · simp [hacc, ih']
    · simp [hacc, ih']

theorem fieldsAux_append_spaces (suf : List Char) (hsuf : ∀ c ∈ suf, goIsSpace c = true) :
    ∀ (t acc : List Char), fieldsAux acc (t ++ suf) = fieldsAux acc t := by
  intro t
  induction t with
  | nil =>
    intro acc
    rw [List.nil_append, fieldsAux_all_spaces suf hsuf acc]
    unfold fieldsAux
    rfl
  | cons c t' ih =>
    intro acc
    simp only [List.cons_append]
    unfold fieldsAux
    by_cases h : goIsSpace c
    · rw [if_pos h, if_pos h]
      by_cases hacc : acc.isEmpty
      · rw [if_pos hacc, if_pos hacc, ih]
      · rw [if_neg hacc, if_neg hacc, ih]
    · rw [if_neg h, if_neg h, ih]

theorem goTrim_decomp (s : List Char) :
    ∃ suf, s.dropWhile goIsSpace = goTrim s ++ suf ∧ ∀ c ∈ suf, goIsSpace c = true := by
  unfold goTrim
  refine ⟨((s.dropWhile goIsSpace).reverse.takeWhile goIsSpace).reverse, ?_, ?_⟩
  · conv_lhs => rw [← List.reverse_reverse (s.dropWhile goIsSpace),
      ← List.takeWhile_append_dropWhile (p := goIsSpace) (l := (s.dropWhile goIsSpace).reverse)]
    rw [List.reverse_append]
  · intro c hc
    rw [List.mem_reverse] at hc
    exact all_takeWhile goIsSpace _ c hc

theorem goFields_goTrim (s : List Char) : goFields (goTrim s) = goFields s := by
  unfold goFields
  obtain ⟨suf, hdec, hsuf⟩ := goTrim_decomp s
  have h1 : fieldsAux [] (goTrim s) = fieldsAux [] (goTrim s ++ suf) :=
    (fieldsAux_append_spaces suf hsuf (goTrim s) []).symm
  rw [h1, ← hdec, fieldsAux_dropWhile_space]

/-- A fragment whose every token is a `NAME=value` assignment yields no
command. -/
theorem extractCommandFromPart_assignments (part : List Char)
    (h : ∀ tok ∈ goFields part, tok.contains '=' = true) :
    extractCommandFromPart part = [] := by
  unfold extractCommandFromPart
  by_cases h1 : (goTrim part).isEmpty
  · rw [if_pos h1]
  · rw [if_neg h1]
    by_cases h2 : (goFields (goTrim part)).isEmpty
    · rw [if_pos h2]
    · rw [if_neg h2]
      have hdw : ((goFields (goTrim part)).dropWhile fun f => f.contains '=') = [] := by
        rw [List.dropWhile_eq_nil_iff]
        intro tok htok
        rw [goFields_goTrim] at htok
        exact h tok htok
      rw [hdw]
      simp

/-! ## Totality of the error-explicit pipeline -/

theorem goSplit1_ne_nil (sep : Char) : ∀ s : List Char, goSplit1 sep s ≠ [] := by
  intro s
  cases s with
  | nil => simp [goSplit1]
  | cons c rest =>
    unfold goSplit1
    by_cases h : c = sep
    · rw [if_pos h]
      exact List.cons_ne_nil _ _
    · rw [if_neg h]
      cases hg : goSplit1 sep rest <;> exact List.cons_ne_nil _ _

theorem normalizeCommandE_ok (cmd : List Char) :
    normalizeCommandE cmd = .ok (normalizeCommand cmd) := by
  unfold normalizeCommandE normalizeCommand
  by_cases h1 : cmd.isEmpty
  · rw [if_pos h1, if_pos h1]
  · rw [if_neg h1, if_neg h1]
    by_cases h2 : cmd.contains '/'
    · rw [if_pos h2, if_pos h2]
      cases hg : (goSplit1 '/' cmd).getLast? with
      | none =>
        exfalso
        rw [List.getLast?_eq_none_iff] at hg
        exact goSplit1_ne_nil '/' cmd hg
      | some last =>
        have hd : (goSplit1 '/' cmd).getLastD [] = last := by
          rw [List.getLastD_eq_getLast?, hg]
          rfl
        rw [hd]
    · rw [if_neg h2, if_neg h2]

theorem foldlM_ok {α β ε : Type} (f : β → α → Except ε β) (g : β → α → β)
    (hfg : ∀ b a, f b a = .ok (g b a)) :
    ∀ (l : List α) (b : β), l.foldlM f b = .ok (l.foldl g b) := by
  intro l
  induction l with
  | nil => intro b; rfl
  | cons a as ih =>
    intro b
    rw [List.foldlM_cons, hfg b a, List.foldl_cons]
    exact ih (g b a)

theorem getMissingCommandsE_ok (missing : String → Bool) (j : Job) :
    GetMissingCommandsE missing j = .ok (GetMissingCommands missing j) := by
  unfold GetMissingCommandsE GetMissingCommands
  by_cases h : !IsUbuntuLatest j
  · rw [if_pos h, if_pos h]
  · rw [if_neg h, if_neg h]
    apply foldlM_ok
    intro acc step
    by_cases hrun : step.run = ""
    · rw [if_pos hrun, if_pos hrun]
    · rw [if_neg hrun, if_neg hrun]
      apply foldlM_ok
      intro acc2 cmd
      rw [normalizeCommandE_ok]
      by_cases hn : (normalizeCommand cmd).isEmpty
      · simp [Except.bind, hn]
      · simp [Except.bind, hn]
        split <;> rfl

/-- A fold whose step function fixes every element of the list is the
identity on the accumulator. -/
theorem foldl_id {α β : Type} (f : β → α → β) :
    ∀ l : List α, (∀ b a, a ∈ l → f b a = b) → ∀ b, l.foldl f b = b := by
  intro l
  induction l with
  | nil => intro _ b; rfl
  | cons a as ih =>
    intro hf b
    rw [List.foldl_cons, hf b a (List.mem_cons_self a as)]
    exact ih (fun b' a' ha' => hf b' a' (List.mem_cons_of_mem a ha')) b

theorem getMissingCommands_nil (missing : String → Bool) (j : Job)
    (h : ∀ step ∈ j.steps, extractCommands step.run = []) :
    GetMissingCommands missing j = [] := by
  unfold GetMissingCommands
  by_cases hul : !IsUbuntuLatest j
  · rw [if_pos hul]
  · rw [if_neg hul]
    apply foldl_id
    intro acc step hmem
    by_cases hrun : step.run = ""
    · rw [if_pos hrun]
    · rw [if_neg hrun, h step hmem]
      rfl

/-! ## The claims -/

/-- C1: the source-runner check `IsUbuntuLatest` holds iff some declared
runner label equals `"ubuntu-latest"` exactly (case-sensitive), in the
scalar and the sequence form alike; a label that merely extends the source
label (e.g. `"ubuntu-latest-xl"`) does not satisfy it, and a job with a
nil/absent runner spec fails the check and is never eligible. -/
theorem claim_c1 :
    (∀ j : Job,
      (IsUbuntuLatest j = true ↔ "ubuntu-latest" ∈ specDeclaredLabels j.runsOn) ∧
      (j.runsOn = RunsOnVal.vNil → IsUbuntuLatest j = false ∧ isEligible j = false)) ∧
    IsUbuntuLatest jobXlLabel = false := by
  constructor
  · intro j
    refine ⟨isUbuntuLatest_iff j, ?_⟩
    intro hnil
    have h1 : IsUbuntuLatest j = false := by
      unfold IsUbuntuLatest
      rw [hnil]
    refine ⟨h1, ?_⟩
    unfold isEligible
    rw [h1]
    rfl
  · decide

/-- Witness for C1 at a concrete nil-runner job. -/
theorem claim_c1_witness :
    IsUbuntuLatest jobNilRunner = false ∧ isEligible jobNilRunner = false :=
  (claim_c1.1 jobNilRunner).2 rfl

/-- Counterexample to C2 as stated: the claim's subcommand list contains
`list`, so a step running `docker list` would have to be flagged; the
code's pattern uses `ps` instead of `list` and does not flag it. -/
theorem claim_c2_counterexample :
    HasDockerCommands jobDockerList = false ∧
      SpecCmd subcmdClaim (toLowerGo "docker list").data := by
  refine ⟨by decide, [], "docker".data ++ ' ' :: "list".data, [], by decide,
    Or.inl rfl, Or.inl rfl, Or.inl ⟨' ', "list".data, by decide, by decide, rfl⟩⟩

/-- C2 (amended): `HasDockerCommands` flags a job iff some shell step
contains, case-insensitively and at word boundaries, `docker` followed by
one whitespace/hyphen separator and one of `build`, `run`, `exec`, `ps`
(not `list`), `pull`, `push`, `tag`, `login`, or a compose invocation in
the hyphenated or the space-separated spelling. -/
theorem claim_c2_amended (j : Job) :
    HasDockerCommands j = true ↔
      ∃ step ∈ j.steps, SpecCmd subcmdCode (toLowerGo step.run).data :=
  hasDocker_iff j

/-- C3: privileged-command matching is word-boundary anchored and
case-insensitive: a step whose text contains the token only inside a
larger word (`echo DOCKER_BUILD`) is not flagged, while any step whose
lowered text contains `docker build` at word boundaries is flagged. -/
theorem claim_c3 :
    HasDockerCommands jobEchoUpper = false ∧
    ∀ (j : Job) (step : Step), step ∈ j.steps →
      ∀ pre post, (toLowerGo step.run).data = pre ++ "docker build".data ++ post →
        BoundL pre → BoundR post → HasDockerCommands j = true := by
  refine ⟨by decide, ?_⟩
  intro j step hmem pre post heq hbl hbr
  refine (hasDocker_iff j).mpr ⟨step, hmem, pre, "docker build".data, post, heq, hbl, hbr,
    Or.inl ⟨' ', "build".data, by decide, by decide, by decide⟩⟩

/-- Witness for C3 at a concrete upper-case `DOCKER BUILD` job. -/
theorem claim_c3_witness : HasDockerCommands jobCaseUpper = true :=
  claim_c3.2 jobCaseUpper { run := "DOCKER BUILD now", uses := "" } (by decide)
    [] " now".data (by decide) (Or.inl rfl)
    (Or.inr ⟨' ', "now".data, by decide, by decide⟩)

/-- C4: `HasContainerActions` flags a job iff some step's action reference
begins with the literal token `docker`; the `docker://target` scheme form
and the `docker/name@ref` organization form are both caught by that one
literal-prefix test, regardless of what follows. -/
theorem claim_c4 :
    (∀ j : Job,
      HasContainerActions j = true ↔
        ∃ step ∈ j.steps, ∃ r, step.uses.data = "docker".data ++ r) ∧
    HasContainerActions jobDockerScheme = true ∧
    HasContainerActions jobDockerOrg = true :=
  ⟨hasContainerActions_iff, by decide, by decide⟩

/-- Counterexample to C5 as stated: for a present but empty `services`
mapping the claim demands `HasServices = false`, but the code's
`j.Services != nil` test returns true. -/
theorem claim_c5_counterexample : HasServices jobEmptyServices = true := rfl

/-- C5 (amended): `HasServices` is true iff the services field is present
(non-nil) in any representable form — including a present but empty
mapping — and the contents of the service descriptors are never
inspected. -/
theorem claim_c5_amended :
    (∀ j : Job, HasServices j = true ↔ j.services ≠ none) ∧
    ∀ (j : Job) (entries : List (String × SvcDesc)),
      HasServices { j with services := some entries } = true := by
  constructor
  · intro j
    unfold HasServices
    rw [Option.isSome_iff_ne_none]
  · intro j entries
    rfl

/-- C6: the extraction pipeline never fails: the error-explicit variant
(every partial Go operation made explicit) returns `ok` of the total
result on every job, every table, and every command string. -/
theorem claim_c6 :
    (∀ cmd : List Char, normalizeCommandE cmd = Except.ok (normalizeCommand cmd)) ∧
    ∀ (missing : String → Bool) (j : Job),
      GetMissingCommandsE missing j = Except.ok (GetMissingCommands missing j) :=
  ⟨normalizeCommandE_ok, getMissingCommandsE_ok⟩

/-- C7: on an `ubuntu-latest` job whose every fragment consists solely of
`NAME=value` tokens, `GetMissingCommands` returns the empty list. -/
theorem claim_c7 (missing : String → Bool) (j : Job)
    (_hul : IsUbuntuLatest j = true)
    (h : ∀ step ∈ j.steps, ∀ fr ∈ scriptFragments step.run,
      ∀ tok ∈ goFields fr, tok.contains '=' = true) :
    GetMissingCommands missing j = [] := by
  apply getMissingCommands_nil
  intro step hmem
  apply extractCommands_eq_nil
  intro fr hfr
  exact extractCommandFromPart_assignments fr (h step hmem fr hfr)

/-- Witness for C7 at the job running `FOO=bar BAZ=qux`. -/
theorem claim_c7_witness : GetMissingCommands (fun _ => true) jobAssignOnly = [] :=
  claim_c7 (fun _ => true) jobAssignOnly (by decide) (by decide)

/-- C8: on `sudo docker build -t app .`, extraction strips the `sudo`
wrapper (stacked wrappers are all stripped), takes the next token as the
command, and basename-reduction drops everything before the last `/`. -/
theorem claim_c8 :
    (extractCommands "sudo docker build -t app .").map normalizeCommand = ["docker".data] ∧
    GetMissingCommands (fun c => c == "docker") jobSudoDocker = ["docker"] ∧
    extractCommandFromPart
        "sudo env time nohup setsid stdbuf /usr/local/bin/docker build".data =
      "/usr/local/bin/docker".data ∧
    normalizeCommand "/usr/local/bin/docker".data = "docker".data :=
  ⟨by decide, by decide, by decide, by decide⟩

/-- C9: `splitCommandLine` treats a redirection target as its own
fragment, so `echo hi > docker` reports both `echo` and the target
`docker` as commands, and the target shows up as a missing command. -/
theorem claim_c9 :
    splitCommandLine (goTrim "echo hi > docker".data) = ["echo hi".data, "docker".data] ∧
    (extractCommands "echo hi > docker").map String.mk = ["echo", "docker"] ∧
    GetMissingCommands (fun c => c == "docker") jobRedirect = ["docker"] :=
  ⟨by decide, by decide, by decide⟩

/-- C10: assignment stripping runs only before the first non-assignment
token: on `env FOO=1 docker build` it stops at `env`, the `env` wrapper is
skipped, and the assignment token `FOO=1` — not `docker` — is returned as
the command, so the job reports no missing `docker`. -/
theorem claim_c10 :
    extractCommandFromPart "env FOO=1 docker build".data = "FOO=1".data ∧
    GetMissingCommands (fun c => c == "docker") jobEnvAssign = [] :=
  ⟨by decide, by decide⟩

end Slimify
